import Mathlib

/-!
# Verification of `simple-vector/simple_vector.h`

A shallow embedding of the `SimpleVector<Type>` container.  The C++ class owns
an `ArrayPtr<Type>` buffer (`arr_`) together with two counters `size_` (number
of live elements) and `capacity_` (the amount of memory the vector claims to
have allocated).  We model the buffer as a `List α` whose length is the number
of elements actually allocated, and the two counters as naturals.  Element
moves of the underlying `Type` are modelled as value copies (the claims under
study never depend on the moved-from residue of an element).
-/

/-- State of a `SimpleVector<Type>`:
* `arr` — contents of the owned `ArrayPtr` buffer; `arr.length` is the number
  of elements actually allocated in it;
* `size` — the `size_` member (count of live elements);
* `capacity` — the `capacity_` member (what `GetCapacity()` reports). -/
structure SimpleVector (α : Type) where
  arr : List α
  size : Nat
  capacity : Nat
deriving Repr, DecidableEq

namespace SimpleVector

variable {α : Type} [Inhabited α]

/-- Modelled from the spec: the OwnedBuffer collaborator (`array_ptr.h`, which
is included by `simple_vector.h` but is not part of `src/`) allocates exactly
`n` elements, default-initialized, when constructed with count `n`. -/
def newBuffer (n : Nat) : List α := List.replicate n default

/-- Read the buffer element at index `i` (dereferencing `begin() + i`);
out-of-range reads are undefined behaviour in C++, modelled as `default`. -/
def read (v : SimpleVector α) (i : Nat) : α := v.arr.getD i default

/-- The logical contents: the elements at indices `[0, size)`. -/
def logical (v : SimpleVector α) : List α := v.arr.take v.size

/-- `SimpleVector() noexcept = default;` — null buffer, `size_ = 0`,
`capacity_ = 0`. -/
def empty : SimpleVector α := ⟨[], 0, 0⟩

/-- `SimpleVector(size_t size)` — delegates to the move-value constructor with
`Type{}`: a buffer of `size` default-valued elements, `size_ = capacity_ = size`. -/
def mkSized (n : Nat) : SimpleVector α := ⟨newBuffer n, n, n⟩

/-- `SimpleVector(size_t size, const Type& value)` — buffer of `size` elements
filled with `value`, `size_ = capacity_ = size`. -/
def mkSizedValue (n : Nat) (value : α) : SimpleVector α := ⟨List.replicate n value, n, n⟩

/-- `SimpleVector(std::initializer_list<Type> init)` — buffer holding the
listed elements, `size_ = capacity_ =` item count. -/
def fromList (l : List α) : SimpleVector α := ⟨l, l.length, l.length⟩

/-- `SimpleVector(ReserveProxyObj proxy)` — buffer of `capacity` default
elements, `size_ = 0`. -/
def mkReserved (n : Nat) : SimpleVector α := ⟨newBuffer n, 0, n⟩

/-- `GetSize()` -/
def GetSize (v : SimpleVector α) : Nat := v.size

/-- `GetCapacity()` -/
def GetCapacity (v : SimpleVector α) : Nat := v.capacity

/-- `IsEmpty()` -/
def IsEmpty (v : SimpleVector α) : Bool := v.size = 0

/-- `Clear()` — `size_ = 0;` (capacity and buffer untouched). -/
def Clear (v : SimpleVector α) : SimpleVector α := { v with size := 0 }

/-- Copy constructor `SimpleVector(const SimpleVector& other)`:
`tmp` is built with `other.GetSize()` buffer elements, `std::copy` fills all of
them from `other`'s live range, then `tmp.capacity_` is overwritten with
`other.GetCapacity()` and `tmp` is swapped into `*this`.  Note the buffer has
`other.size` allocated elements even when `other.capacity` is larger. -/
def copyCtor (other : SimpleVector α) : SimpleVector α :=
  ⟨(List.range other.size).map (read other), other.size, other.capacity⟩

/-- Move constructor `SimpleVector(SimpleVector&& other)`: `arr_` is first
allocated with `other.size_` elements, then swapped with `other.arr_`;
`size_`/`capacity_` are copied over, and `other.Clear()` zeroes only
`other.size_`.  Returns `(constructed vector, moved-from other)`. -/
def moveCtor (other : SimpleVector α) : SimpleVector α × SimpleVector α :=
  (⟨other.arr, other.size, other.capacity⟩,
   ⟨newBuffer other.size, 0, other.capacity⟩)

/-- Copy assignment `operator=(const SimpleVector& rhs)`.  `same` models the
pointer test `this == &rhs`.  Returns `(new *this, rhs)`. -/
def copyAssign (self rhs : SimpleVector α) (same : Bool) :
    SimpleVector α × SimpleVector α :=
  if same then (self, rhs)
  else if rhs.size = 0 then (Clear self, rhs)
  else (copyCtor rhs, rhs)

/-- Move assignment `operator=(SimpleVector&& rhs)`.  `same` models the pointer
test `this == &rhs`.  For non-empty `rhs`, `swap(std::move(rhs))` exchanges all
three members and then `rhs.Clear()` zeroes `rhs.size_` (its capacity becomes
the old capacity of `*this`).  Returns `(new *this, moved-from rhs)`. -/
def moveAssign (self rhs : SimpleVector α) (same : Bool) :
    SimpleVector α × SimpleVector α :=
  if same then (self, rhs)
  else if rhs.size = 0 then (Clear self, rhs)
  else (⟨rhs.arr, rhs.size, rhs.capacity⟩, ⟨self.arr, 0, self.capacity⟩)

/-- `ChangeCapacity(new_size)`: builds `SimpleVector new_arr(new_size)` (buffer
of `new_size` default elements), moves the live range `begin()..end()` to its
front, swaps with it and restores the previous `size_`.  The resulting buffer
holds the old live elements followed by defaults, `capacity_ = new_size`. -/
def ChangeCapacity (v : SimpleVector α) (new_size : Nat) : SimpleVector α :=
  ⟨(List.range new_size).map (fun i => if i < v.size then read v i else default),
   v.size, new_size⟩

/-- The growth step shared by `PushBack` and `Insert`:
`if (size_ == capacity_) size_ != 0 ? ChangeCapacity(2 * size_) : ChangeCapacity(1);` -/
def grow (v : SimpleVector α) : SimpleVector α :=
  if v.size = v.capacity then
    if v.size ≠ 0 then ChangeCapacity v (2 * v.size) else ChangeCapacity v 1
  else v

/-- `PushBack(item)` (both overloads write `item` at index `size_` and
increment `size_`; the move overload's reset of its argument is outside the
vector's state). -/
def PushBack (v : SimpleVector α) (item : α) : SimpleVector α :=
  let w := grow v
  { w with arr := w.arr.set w.size item, size := w.size + 1 }

/-- `Insert(pos, value)` with `pos = begin() + i` (precondition `i ≤ size_`):
the index is computed before any growth, the vector grows if full, then
`copy_backward`/`move_backward` shifts the range `[i, size_)` one slot right,
`value` is written at index `i`, `size_` increments, and `begin() + i` is
returned.  The buffer after the shift-and-write is
`take i ++ [value] ++ (old elements i..size) ++ untouched tail`. -/
def Insert (v : SimpleVector α) (i : Nat) (value : α) : SimpleVector α × Nat :=
  let w := grow v
  ({ w with
      arr := w.arr.take i ++ [value] ++ (w.arr.drop i).take (w.size - i) ++
             w.arr.drop (w.size + 1),
      size := w.size + 1 }, i)

/-- `PopBack()` — no-op on an empty vector, otherwise `--size_`. -/
def PopBack (v : SimpleVector α) : SimpleVector α :=
  if v.size = 0 then v else { v with size := v.size - 1 }

/-- `Erase(pos)` with `pos = begin() + i` (precondition `i < size_`):
`std::move(it + 1, end(), it)` shifts the range `[i+1, size_)` one slot left,
`size_` decrements, and the given position (index `i`) is returned. -/
def Erase (v : SimpleVector α) (i : Nat) : SimpleVector α × Nat :=
  ({ v with
      arr := v.arr.take i ++ (v.arr.drop (i + 1)).take (v.size - 1 - i) ++
             v.arr.drop (v.size - 1),
      size := v.size - 1 }, i)

/-- Assign default values to the `n` buffer slots starting at `lo`
(the loop in `Resize`'s middle branch). -/
def fillDefault (l : List α) : Nat → Nat → List α
  | _, 0 => l
  | lo, n + 1 => fillDefault (l.set lo default) (lo + 1) n

/-- `Resize(new_size)`. -/
def Resize (v : SimpleVector α) (new_size : Nat) : SimpleVector α :=
  if new_size ≤ v.size then { v with size := new_size }
  else if new_size ≤ v.capacity then
    { v with arr := fillDefault v.arr v.size (new_size - v.size), size := new_size }
  else { ChangeCapacity v new_size with size := new_size }

/-- `Reserve(new_capacity)` — grows via `ChangeCapacity` only when
`capacity_ < new_capacity`. -/
def Reserve (v : SimpleVector α) (new_capacity : Nat) : SimpleVector α :=
  if v.capacity < new_capacity then ChangeCapacity v new_capacity else v

/-- `At(index)` — `throw std::out_of_range("Invalid index")` when
`index >= size_`, else returns the element at `index`.  `At` does not mutate
the vector. -/
def At (v : SimpleVector α) (i : Nat) : Except String α :=
  if i ≥ v.size then Except.error "Invalid index" else Except.ok (read v i)

/-- member `swap(SimpleVector& other)` — exchanges buffer, size and capacity. -/
def swapOp (a b : SimpleVector α) : SimpleVector α × SimpleVector α := (b, a)

/-- `operator==`: `lhs.GetSize() == rhs.GetSize() && std::equal(lhs.cbegin(),
lhs.cend(), rhs.cbegin(), rhs.cend())`.  `rangeEqual` mirrors the
four-iterator `std::equal`. -/
def rangeEqual [DecidableEq α] : List α → List α → Bool
  | [], [] => true
  | x :: xs, y :: ys => if x = y then rangeEqual xs ys else false
  | _, _ => false

/-- `std::lexicographical_compare` over two element ranges. -/
def lexCompare [LinearOrder α] : List α → List α → Bool
  | _, [] => false
  | [], _ :: _ => true
  | x :: xs, y :: ys => if x < y then true else if y < x then false else lexCompare xs ys

/-- `operator==` -/
def eqOp [DecidableEq α] (lhs rhs : SimpleVector α) : Bool :=
  lhs.GetSize == rhs.GetSize && rangeEqual (logical lhs) (logical rhs)

/-- `operator!=` : `!(lhs == rhs)` -/
def neOp [DecidableEq α] (lhs rhs : SimpleVector α) : Bool := !(eqOp lhs rhs)

/-- `operator<` -/
def ltOp [LinearOrder α] (lhs rhs : SimpleVector α) : Bool :=
  lexCompare (logical lhs) (logical rhs)

/-- `operator<=` : `!(rhs < lhs)` -/
def leOp [LinearOrder α] (lhs rhs : SimpleVector α) : Bool := !(ltOp rhs lhs)

/-- `operator>` : `rhs < lhs` -/
def gtOp [LinearOrder α] (lhs rhs : SimpleVector α) : Bool := ltOp rhs lhs

/-- `operator>=` : `!(rhs > lhs)` -/
def geOp [LinearOrder α] (lhs rhs : SimpleVector α) : Bool := !(gtOp rhs lhs)

/-- The spec's storage invariant (§3): the buffer has allocated exactly
`capacity` elements, and the size does not exceed the capacity. -/
def Good (v : SimpleVector α) : Prop :=
  v.arr.length = v.capacity ∧ v.size ≤ v.capacity

instance (v : SimpleVector α) : Decidable (Good v) := by
  unfold Good; infer_instance

end SimpleVector

namespace SimpleVector

variable {α : Type} [Inhabited α]

/-- Repeated `PushBack` of the items of `l`, in order. -/
def pushList (v : SimpleVector α) (l : List α) : SimpleVector α :=
  l.foldl PushBack v

/-- `c` is the smallest term of the sequence `1, 2, 4, 8, ...` that is `≥ n`. -/
def IsLeastPow2Geq (n c : Nat) : Prop :=
  (∃ k, c = 2 ^ k) ∧ n ≤ c ∧ ∀ m, (∃ k, m = 2 ^ k) → n ≤ m → c ≤ m

end SimpleVector

/-! ## Basic lemmas about the embedding -/

namespace SimpleVector

variable {α : Type} [Inhabited α]

theorem map_read_range (v : SimpleVector α) (n : Nat) (h : n ≤ v.arr.length) :
    (List.range n).map (read v) = v.arr.take n := by
  apply List.ext_getElem
  · simp [Nat.min_eq_left h]
  · intro i h1 h2
    simp only [List.getElem_map, List.getElem_range, List.getElem_take, read]
    have hi : i < v.arr.length := by simp at h2; omega
    simp [List.getD_eq_getElem?_getD, List.getElem?_eq_getElem hi]

theorem changeCapacity_size (v : SimpleVector α) (n : Nat) :
    (ChangeCapacity v n).size = v.size := rfl

theorem changeCapacity_capacity (v : SimpleVector α) (n : Nat) :
    (ChangeCapacity v n).capacity = n := rfl

theorem changeCapacity_length (v : SimpleVector α) (n : Nat) :
    (ChangeCapacity v n).arr.length = n := by
  simp [ChangeCapacity]

theorem changeCapacity_logical (v : SimpleVector α) (n : Nat)
    (hlen : v.size ≤ v.arr.length) (hn : v.size ≤ n) :
    logical (ChangeCapacity v n) = logical v := by
  unfold logical ChangeCapacity
  apply List.ext_getElem
  · simp; omega
  · intro i h1 h2
    have hi : i < v.size := by simp at h1; omega
    have hia : i < v.arr.length := by omega
    simp only [List.getElem_take, List.getElem_map, List.getElem_range]
    simp [hi, read, List.getD_eq_getElem?_getD, List.getElem?_eq_getElem hia]

theorem grow_size (v : SimpleVector α) : (grow v).size = v.size := by
  unfold grow; split
  · split <;> rfl
  · rfl

theorem grow_capacity_of_full (v : SimpleVector α) (h : v.size = v.capacity) :
    (grow v).capacity = if v.size = 0 then 1 else 2 * v.size := by
  unfold grow
  rw [if_pos h]
  by_cases h0 : v.size = 0 <;> simp [h0, changeCapacity_capacity]

theorem grow_capacity_of_not_full (v : SimpleVector α) (h : v.size ≠ v.capacity) :
    (grow v).capacity = v.capacity := by
  unfold grow; rw [if_neg h]

theorem grow_good (v : SimpleVector α) (h : Good v) :
    Good (grow v) ∧ (grow v).size < (grow v).capacity := by
  obtain ⟨hlen, hle⟩ := h
  unfold grow
  by_cases hf : v.size = v.capacity
  · rw [if_pos hf]
    by_cases h0 : v.size = 0 <;>
      simp [h0, Good, changeCapacity_length, changeCapacity_capacity,
        changeCapacity_size] <;> omega
  · rw [if_neg hf]
    exact ⟨⟨hlen, hle⟩, by omega⟩

theorem grow_logical (v : SimpleVector α) (h : Good v) :
    logical (grow v) = logical v := by
  obtain ⟨hlen, hle⟩ := h
  unfold grow
  by_cases hf : v.size = v.capacity
  · rw [if_pos hf]
    by_cases h0 : v.size = 0 <;>
      [skip; skip] <;> simp [h0] <;>
      apply changeCapacity_logical <;> omega
  · rw [if_neg hf]

theorem take_succ_set (l : List α) (n : Nat) (x : α) (h : n < l.length) :
    (l.set n x).take (n + 1) = l.take n ++ [x] := by
  apply List.ext_getElem
  · simp; omega
  · intro i h1 h2
    have hi : i < n + 1 := by simp at h1; omega
    by_cases hin : i < n
    · rw [List.getElem_take, List.getElem_set,
        List.getElem_append_left (by simp; omega)]
      simp [Nat.ne_of_gt hin]
    · have hn : i = n := by omega
      subst hn
      rw [List.getElem_take, List.getElem_set]
      have hlt : (l.take i).length ≤ i := by simp
      rw [List.getElem_append_right hlt]
      simp

end SimpleVector

namespace SimpleVector

variable {α : Type} [Inhabited α]

theorem pushBack_size (v : SimpleVector α) (x : α) :
    (PushBack v x).size = v.size + 1 := by
  simp [PushBack, grow_size]

theorem pushBack_capacity (v : SimpleVector α) (x : α) :
    (PushBack v x).capacity = (grow v).capacity := rfl

theorem pushBack_good (v : SimpleVector α) (x : α) (h : Good v) :
    Good (PushBack v x) := by
  obtain ⟨⟨hlen, hle⟩, hlt⟩ := grow_good v h
  refine ⟨?_, ?_⟩
  · simp [PushBack, hlen]
  · simp [PushBack]; omega

theorem pushBack_logical (v : SimpleVector α) (x : α) (h : Good v) :
    logical (PushBack v x) = logical v ++ [x] := by
  obtain ⟨⟨hlen, hle⟩, hlt⟩ := grow_good v h
  have hsz : (grow v).size < (grow v).arr.length := by omega
  show ((grow v).arr.set (grow v).size x).take ((grow v).size + 1) = _
  rw [take_succ_set _ _ _ hsz]
  rw [show (grow v).arr.take (grow v).size = logical (grow v) from rfl,
    grow_logical v h]

end SimpleVector

/-! ## The claims -/

namespace SimpleVector

variable {α : Type} [Inhabited α]

/-- C1 counterexample: move-constructing from the vector obtained by one
`PushBack` (size 1, capacity 1) leaves the source with capacity 1, not 0 —
`other.Clear()` only zeroes the size. -/
theorem moveCtor_source_capacity_not_reset :
    (moveCtor (PushBack (empty : SimpleVector Nat) 7)).2.capacity ≠ 0 := by
  decide

/-- C1 (amended): move construction gives the target the source's prior
elements, size and capacity, and leaves the source with size 0 but with its
prior capacity.  Move assignment of a non-empty `a` into `b` gives `b` the
prior elements, size and capacity of `a`, and leaves `a` with size 0 and
with `b`'s prior capacity.  Move assignment of an empty `a` merely clears
`b`'s size and leaves `a` unchanged. -/
theorem move_transfers_contents (a b : SimpleVector α) :
    ((moveCtor a).1.size = a.size ∧ (moveCtor a).1.capacity = a.capacity ∧
     logical (moveCtor a).1 = logical a ∧
     (moveCtor a).2.size = 0 ∧ (moveCtor a).2.capacity = a.capacity) ∧
    (a.size ≠ 0 →
      (moveAssign b a false).1.size = a.size ∧
      (moveAssign b a false).1.capacity = a.capacity ∧
      logical (moveAssign b a false).1 = logical a ∧
      (moveAssign b a false).2.size = 0 ∧
      (moveAssign b a false).2.capacity = b.capacity) ∧
    (a.size = 0 → moveAssign b a false = (Clear b, a)) := by
  refine ⟨⟨rfl, rfl, rfl, rfl, rfl⟩, ?_, ?_⟩
  · intro h
    simp [moveAssign, h, logical]
  · intro h
    simp [moveAssign, h]

/-- Witness for the amended C1 theorem at `a = [1,2]`, `b = [9,9,9]`. -/
theorem move_transfers_contents_witness :
    (moveAssign (fromList [9, 9, 9] : SimpleVector Nat) (fromList [1, 2]) false).1.size = 2 ∧
    (moveAssign (fromList [9, 9, 9] : SimpleVector Nat) (fromList [1, 2]) false).2.capacity = 3 ∧
    (moveCtor (fromList [1, 2] : SimpleVector Nat)).2.capacity = 2 :=
  ⟨(((move_transfers_contents (fromList [1, 2]) (fromList [9, 9, 9])).2.1
      (by decide)).1).trans (by decide),
   ((move_transfers_contents (fromList [1, 2]) (fromList [9, 9, 9])).2.1
      (by decide)).2.2.2.2.trans (by decide),
   ((move_transfers_contents (fromList [1, 2]) (fromList [9, 9, 9])).1.2.2.2.2).trans
      (by decide)⟩

/-- C2: the storage invariant `arr.length = capacity` is violated by the copy
constructor.  The vector `a` obtained by `PushBack 1; PushBack 2; PopBack`
(size 1, capacity 2) is reachable and satisfies the invariant, but copying it
yields a vector whose buffer has 1 allocated element while `GetCapacity()`
reports 2.  (The move constructor similarly leaves its source with a buffer of
`size` elements but the old capacity.) -/
theorem copyCtor_breaks_invariant :
    Good (PopBack (PushBack (PushBack (empty : SimpleVector Nat) 1) 2)) ∧
    ¬ Good (copyCtor (PopBack (PushBack (PushBack (empty : SimpleVector Nat) 1) 2))) ∧
    (copyCtor (PopBack (PushBack (PushBack (empty : SimpleVector Nat) 1) 2))).arr.length = 1 ∧
    (copyCtor (PopBack (PushBack (PushBack (empty : SimpleVector Nat) 1) 2))).capacity = 2 := by
  decide

/-- C4: copy construction of a well-formed vector preserves the reported
size, the reported capacity (not merely the size), and the logical elements
in order.  (Isolation from the source is inherent to the model: the copy is
a fresh value sharing no state with `v`.) -/
theorem copyCtor_deep_copy (v : SimpleVector α) (h : Good v) :
    GetSize (copyCtor v) = GetSize v ∧
    GetCapacity (copyCtor v) = GetCapacity v ∧
    logical (copyCtor v) = logical v := by
  refine ⟨rfl, rfl, ?_⟩
  show ((List.range v.size).map (read v)).take v.size = logical v
  have hlen : v.size ≤ v.arr.length := by
    obtain ⟨h1, h2⟩ := h; omega
  rw [map_read_range v v.size hlen]
  simp [logical, List.take_take]

/-- Witness for the C4 theorem at `v = [3,4]`. -/
theorem copyCtor_deep_copy_witness :
    Good (fromList [3, 4] : SimpleVector Nat) ∧
    logical (copyCtor (fromList [3, 4] : SimpleVector Nat)) =
      logical (fromList [3, 4] : SimpleVector Nat) :=
  ⟨by decide, (copyCtor_deep_copy (fromList [3, 4]) (by decide)).2.2⟩

/-- C7: `At(index)` signals an out-of-range error exactly when
`index >= size` (in particular `At 0` on an empty vector errors), and for
`index < size` it returns the element at that index.  `At` takes the vector
by reference and never mutates it. -/
theorem At_out_of_range_iff (v : SimpleVector α) (i : Nat) :
    ((∃ e, At v i = Except.error e) ↔ v.size ≤ i) ∧
    (i < v.size → At v i = Except.ok (read v i)) := by
  by_cases h : v.size ≤ i
  · refine ⟨⟨fun _ => h, fun _ => ⟨"Invalid index", ?_⟩⟩, fun hlt => absurd hlt (by omega)⟩
    simp [At, h]
  · refine ⟨⟨?_, fun hle => absurd hle h⟩, fun _ => ?_⟩
    · rintro ⟨e, he⟩
      simp [At, h] at he
    · simp [At, h]

/-- Witness for the C7 theorem: `At [5,6] 0` returns element 0, and
`At [5,6] 7` and `At empty 0` error. -/
theorem At_out_of_range_iff_witness :
    At (fromList [5, 6] : SimpleVector Nat) 0 = Except.ok (read (fromList [5, 6]) 0) ∧
    (∃ e, At (fromList [5, 6] : SimpleVector Nat) 7 = Except.error e) ∧
    (∃ e, At (empty : SimpleVector Nat) 0 = Except.error e) :=
  ⟨(At_out_of_range_iff (fromList [5, 6]) 0).2 (by decide),
   (At_out_of_range_iff (fromList [5, 6]) 7).1.2 (by decide),
   (At_out_of_range_iff (empty : SimpleVector Nat) 0).1.2 (by decide)⟩

/-- C10: self-assignment (the `this == &rhs` test evaluating to true) is a
no-op for both copy assignment and move assignment: size, capacity and all
elements are unchanged. -/
theorem self_assignment_noop (a : SimpleVector α) :
    copyAssign a a true = (a, a) ∧ moveAssign a a true = (a, a) :=
  ⟨rfl, rfl⟩

end SimpleVector

namespace SimpleVector

variable {α : Type} [Inhabited α]

theorem isLeastPow2Geq_pow_clog (n : Nat) :
    IsLeastPow2Geq n (2 ^ Nat.clog 2 n) := by
  refine ⟨⟨_, rfl⟩, Nat.le_pow_clog (by norm_num) n, ?_⟩
  rintro m ⟨k, rfl⟩ hm
  exact Nat.pow_le_pow_right (by norm_num)
    ((Nat.le_pow_iff_clog_le (by norm_num)).1 hm)

theorem pushBack_growth_invariant (v : SimpleVector α) (x : α)
    (h : Good v) (h0 : v.size = 0 → v.capacity = 0)
    (h1 : 1 ≤ v.size → v.capacity = 2 ^ Nat.clog 2 v.size) :
    Good (PushBack v x) ∧ (PushBack v x).size = v.size + 1 ∧
    (PushBack v x).capacity = 2 ^ Nat.clog 2 (v.size + 1) := by
  refine ⟨pushBack_good v x h, pushBack_size v x, ?_⟩
  rw [pushBack_capacity]
  by_cases hz : v.size = 0
  · have hc : v.capacity = 0 := h0 hz
    have hfull : v.size = v.capacity := by omega
    rw [grow_capacity_of_full v hfull, if_pos hz, hz]
    rw [show (0 + 1 : Nat) = 1 from rfl, Nat.clog_one_right]
    norm_num
  · have hs : 1 ≤ v.size := by omega
    have hcap : v.capacity = 2 ^ Nat.clog 2 v.size := h1 hs
    by_cases hfull : v.size = v.capacity
    · rw [grow_capacity_of_full v hfull, if_neg hz]
      have hgt : 2 ^ Nat.clog 2 v.size < v.size + 1 := by omega
      have hup : Nat.clog 2 v.size + 1 ≤ Nat.clog 2 (v.size + 1) := by
        by_contra hcon
        have : v.size + 1 ≤ 2 ^ Nat.clog 2 v.size :=
          (Nat.le_pow_iff_clog_le (by norm_num)).2 (by omega)
        omega
      have hdown : Nat.clog 2 (v.size + 1) ≤ Nat.clog 2 v.size + 1 := by
        apply (Nat.le_pow_iff_clog_le (by norm_num)).1
        have : 2 ^ (Nat.clog 2 v.size + 1) = 2 * 2 ^ Nat.clog 2 v.size := by ring
        omega
      have heq : Nat.clog 2 (v.size + 1) = Nat.clog 2 v.size + 1 := by omega
      rw [heq, pow_succ]
      omega
    · rw [grow_capacity_of_not_full v hfull, hcap]
      congr 1
      have hle : v.size + 1 ≤ 2 ^ Nat.clog 2 v.size := by
        have := h.2
        omega
      have hdown : Nat.clog 2 (v.size + 1) ≤ Nat.clog 2 v.size :=
        (Nat.le_pow_iff_clog_le (by norm_num)).1 hle
      have hup : Nat.clog 2 v.size ≤ Nat.clog 2 (v.size + 1) :=
        Nat.clog_mono_right 2 (by omega)
      omega

theorem pushList_growth_invariant (l : List α) :
    ∀ (v : SimpleVector α), Good v → (v.size = 0 → v.capacity = 0) →
    (1 ≤ v.size → v.capacity = 2 ^ Nat.clog 2 v.size) →
    (pushList v l).size = v.size + l.length ∧ Good (pushList v l) ∧
    ((pushList v l).size = 0 → (pushList v l).capacity = 0) ∧
    (1 ≤ (pushList v l).size →
      (pushList v l).capacity = 2 ^ Nat.clog 2 (pushList v l).size) := by
  induction l with
  | nil => intro v h h0 h1; exact ⟨by simp [pushList], h, h0, h1⟩
  | cons x xs ih =>
    intro v h h0 h1
    obtain ⟨hg, hsz, hcap⟩ := pushBack_growth_invariant v x h h0 h1
    have step := ih (PushBack v x) hg (by omega) (by intro _; rw [hcap, hsz])
    have hfold : pushList v (x :: xs) = pushList (PushBack v x) xs := rfl
    rw [hfold]
    refine ⟨?_, step.2.1, step.2.2.1, step.2.2.2⟩
    rw [step.1, hsz]
    simp
    omega

/-- C3: pushing `l`'s items one by one onto a default-constructed vector
yields `GetSize() = l.length`, and (for a non-empty `l`) a capacity equal to
the smallest term of `1, 2, 4, 8, ...` that is `≥ l.length`; moreover any
`PushBack` or `Insert` performed when `size == capacity` sets the capacity to
exactly `2 * size` if `size ≠ 0` and to `1` if `size = 0`. -/
theorem pushBack_doubling (l : List α) :
    GetSize (pushList (empty : SimpleVector α) l) = l.length ∧
    (l ≠ [] → IsLeastPow2Geq l.length (GetCapacity (pushList (empty : SimpleVector α) l))) ∧
    (∀ (v : SimpleVector α) (x : α), v.size = v.capacity →
      GetCapacity (PushBack v x) = if v.size = 0 then 1 else 2 * v.size) ∧
    (∀ (v : SimpleVector α) (i : Nat) (x : α), i ≤ v.size → v.size = v.capacity →
      GetCapacity (Insert v i x).1 = if v.size = 0 then 1 else 2 * v.size) := by
  have base := pushList_growth_invariant l (empty : SimpleVector α)
    ⟨rfl, by simp [empty]⟩ (fun _ => rfl) (by intro h; simp [empty] at h)
  have hsize : (pushList (empty : SimpleVector α) l).size = l.length := by
    rw [base.1]; simp [empty]
  refine ⟨hsize, ?_, ?_, ?_⟩
  · intro hne
    have hlen : 1 ≤ l.length := by
      cases l with
      | nil => exact absurd rfl hne
      | cons a as => simp
    have := base.2.2.2 (by omega)
    show IsLeastPow2Geq l.length (pushList (empty : SimpleVector α) l).capacity
    rw [this, hsize]
    exact isLeastPow2Geq_pow_clog l.length
  · intro v x hfull
    show (PushBack v x).capacity = _
    rw [pushBack_capacity, grow_capacity_of_full v hfull]
  · intro v i x _ hfull
    show (grow v).capacity = _
    rw [grow_capacity_of_full v hfull]

/-- Witness for the C3 theorem: three pushes give size 3 and capacity 4 (the
least power of two `≥ 3`), and a full vector of size 2 doubles to 4 on push. -/
theorem pushBack_doubling_witness :
    GetSize (pushList (empty : SimpleVector Nat) [10, 20, 30]) = 3 ∧
    GetCapacity (pushList (empty : SimpleVector Nat) [10, 20, 30]) = 4 ∧
    IsLeastPow2Geq 3 (GetCapacity (pushList (empty : SimpleVector Nat) [10, 20, 30])) ∧
    GetCapacity (PushBack (fromList [1, 2] : SimpleVector Nat) 9) = 4 :=
  ⟨(pushBack_doubling [10, 20, 30]).1, by decide,
   (pushBack_doubling [10, 20, 30]).2.1 (by decide),
   ((pushBack_doubling ([] : List Nat)).2.2.1 (fromList [1, 2]) 9 (by decide)).trans
     (by decide)⟩

end SimpleVector

namespace SimpleVector

variable {α : Type} [Inhabited α]

theorem fillDefault_eq (n : Nat) : ∀ (l : List α) (lo : Nat), lo + n ≤ l.length →
    fillDefault l lo n =
      l.take lo ++ List.replicate n default ++ l.drop (lo + n) := by
  induction n with
  | zero => intro l lo _; simp [fillDefault]
  | succ n ih =>
    intro l lo h
    show fillDefault (l.set lo default) (lo + 1) n = _
    rw [ih (l.set lo default) (lo + 1) (by simp; omega)]
    have h1 : (l.set lo default).take (lo + 1) = l.take lo ++ [default] :=
      take_succ_set l lo default (by omega)
    have h2 : (l.set lo default).drop (lo + 1 + n) = l.drop (lo + 1 + n) := by
      rw [List.drop_set, if_pos (by omega)]
    rw [h1, h2]
    have h3 : List.replicate (n + 1) (default : α) =
        [default] ++ List.replicate n default := by
      rw [List.replicate_succ]; rfl
    rw [h3]
    have h4 : lo + (n + 1) = lo + 1 + n := by omega
    rw [h4]
    simp [List.append_assoc]

/-- C5: the three cases of `Resize(newSize)`.
* `newSize ≤ size`: size becomes `newSize`; the capacity, the buffer and hence
  all elements are untouched (pure logical truncation).
* `size < newSize ≤ capacity`: the slots `[size, newSize)` are assigned
  default values, size becomes `newSize`, capacity unchanged.
* `capacity < newSize`: capacity becomes exactly `newSize`, size becomes
  `newSize`, and the first `size` old elements are preserved in order (the
  fresh tail is default-valued). -/
theorem Resize_cases (v : SimpleVector α) (new_size : Nat) (hg : Good v) :
    (new_size ≤ v.size →
      (Resize v new_size).size = new_size ∧
      (Resize v new_size).capacity = v.capacity ∧
      (Resize v new_size).arr = v.arr ∧
      logical (Resize v new_size) = (logical v).take new_size) ∧
    (v.size < new_size → new_size ≤ v.capacity →
      (Resize v new_size).size = new_size ∧
      (Resize v new_size).capacity = v.capacity ∧
      logical (Resize v new_size) =
        logical v ++ List.replicate (new_size - v.size) default) ∧
    (v.capacity < new_size →
      (Resize v new_size).size = new_size ∧
      (Resize v new_size).capacity = new_size ∧
      (logical (Resize v new_size)).take v.size = logical v ∧
      logical (Resize v new_size) =
        logical v ++ List.replicate (new_size - v.size) default) := by
  obtain ⟨hlen, hle⟩ := hg
  refine ⟨?_, ?_, ?_⟩
  · intro h
    rw [Resize, if_pos h]
    refine ⟨rfl, rfl, rfl, ?_⟩
    simp [logical, List.take_take, Nat.min_eq_left h]
  · intro h1 h2
    have hnot : ¬ new_size ≤ v.size := by omega
    rw [Resize, if_neg hnot, if_pos h2]
    refine ⟨rfl, rfl, ?_⟩
    show (fillDefault v.arr v.size (new_size - v.size)).take new_size = _
    rw [fillDefault_eq (new_size - v.size) v.arr v.size (by omega)]
    have hfront : ((v.arr.take v.size ++ List.replicate (new_size - v.size) default)).length
        = new_size := by
      simp only [List.length_append, List.length_take, List.length_replicate]
      omega
    rw [List.append_assoc, ← List.append_assoc]
    rw [show v.size + (new_size - v.size) = new_size from by omega]
    exact List.take_left' hfront
  · intro h
    have hnot1 : ¬ new_size ≤ v.size := by omega
    have hnot2 : ¬ new_size ≤ v.capacity := by omega
    rw [Resize, if_neg hnot1, if_neg hnot2]
    have hmain : (({ ChangeCapacity v new_size with size := new_size } :
        SimpleVector α)).logical =
        logical v ++ List.replicate (new_size - v.size) default := by
      show ((List.range new_size).map
        (fun i => if i < v.size then read v i else default)).take new_size = _
      apply List.ext_getElem
      · simp only [List.length_take, List.length_map, List.length_range,
          List.length_append, List.length_replicate, logical]
        omega
      · intro i hi1 hi2
        have hin : i < new_size := by
          simp only [List.length_take, List.length_map, List.length_range] at hi1
          omega
        simp only [List.getElem_take, List.getElem_map, List.getElem_range]
        by_cases hiv : i < v.size
        · have hia : i < v.arr.length := by omega
          rw [List.getElem_append_left
            (by simp only [logical, List.length_take]; omega)]
          simp [hiv, read, List.getD_eq_getElem?_getD,
            List.getElem?_eq_getElem hia, logical]
        · rw [List.getElem_append_right
            (by simp only [logical, List.length_take]; omega)]
          simp [hiv]
    refine ⟨rfl, rfl, ?_, hmain⟩
    rw [hmain]
    have hlog : (logical v).length = v.size := by
      simp only [logical, List.length_take]; omega
    rw [List.take_append_of_le_length (by omega), List.take_of_length_le (by omega)]

/-- Witness for the C5 theorem: shrink, in-capacity growth, and reallocation
cases at concrete inputs. -/
theorem Resize_cases_witness :
    logical (Resize (fromList [1, 2, 3] : SimpleVector Nat) 2) =
      (logical (fromList [1, 2, 3] : SimpleVector Nat)).take 2 ∧
    logical (Resize (mkReserved 4 : SimpleVector Nat) 3) =
      logical (mkReserved 4 : SimpleVector Nat) ++ List.replicate 3 0 ∧
    (Resize (fromList [1, 2] : SimpleVector Nat) 5).capacity = 5 :=
  ⟨((Resize_cases (fromList [1, 2, 3]) 2 (by decide)).1 (by decide)).2.2.2,
   (((Resize_cases (mkReserved 4 : SimpleVector Nat) 3 (by decide)).2.1
      (by decide)) (by decide)).2.2,
   (((Resize_cases (fromList [1, 2] : SimpleVector Nat) 5 (by decide)).2.2
      (by decide)).2.1)⟩

end SimpleVector

namespace SimpleVector

variable {α : Type} [Inhabited α]

theorem drop_logical (v : SimpleVector α) (i : Nat) (hi : i ≤ v.size) :
    (logical v).drop i = (v.arr.drop i).take (v.size - i) := by
  rw [logical, List.take_drop]
  rw [show i + (v.size - i) = v.size from by omega]

theorem take_logical (v : SimpleVector α) (i : Nat) (hi : i ≤ v.size) :
    (logical v).take i = v.arr.take i := by
  rw [logical, List.take_take, Nat.min_eq_left hi]

/-- C6: `Insert(begin + i, x)` with `0 ≤ i ≤ size` keeps the first `i`
elements, writes `x` at index `i`, shifts the old elements `[i, size)` one
slot toward the end in order, increments the size by one, and returns the
index `i` of the inserted element (whose value is `x`).  In particular
`Insert(begin, x)` on `[1,2,3]` yields `[x,1,2,3]` and `Insert(end, x)`
yields `[1,2,3,x]`. -/
theorem Insert_shifts (v : SimpleVector α) (i : Nat) (x : α)
    (hg : Good v) (hi : i ≤ v.size) :
    (Insert v i x).2 = i ∧
    (Insert v i x).1.size = v.size + 1 ∧
    logical (Insert v i x).1 = (logical v).take i ++ [x] ++ (logical v).drop i ∧
    read (Insert v i x).1 i = x := by
  obtain ⟨⟨hwlen, hwle⟩, hwlt⟩ := grow_good v hg
  have hwsz : (grow v).size = v.size := grow_size v
  have hwlog : logical (grow v) = logical v := grow_logical v hg
  have hilen : i ≤ (grow v).arr.length := by omega
  have hA : ((grow v).arr.take i ++ [x] ++
      ((grow v).arr.drop i).take ((grow v).size - i)).length = (grow v).size + 1 := by
    simp only [List.length_append, List.length_take, List.length_cons,
      List.length_nil, List.length_drop]
    omega
  have hbuf : (grow v).arr.take i ++ [x] ++
      ((grow v).arr.drop i).take ((grow v).size - i) ++
      (grow v).arr.drop ((grow v).size + 1) =
      ((grow v).arr.take i ++ [x] ++
        ((grow v).arr.drop i).take ((grow v).size - i)) ++
      (grow v).arr.drop ((grow v).size + 1) := by
    simp [List.append_assoc]
  have hlog : logical (Insert v i x).1 =
      (logical v).take i ++ [x] ++ (logical v).drop i := by
    show ((grow v).arr.take i ++ [x] ++
      ((grow v).arr.drop i).take ((grow v).size - i) ++
      (grow v).arr.drop ((grow v).size + 1)).take ((grow v).size + 1) = _
    rw [hbuf, List.take_left' hA]
    rw [← hwlog, take_logical (grow v) i (by omega),
      drop_logical (grow v) i (by omega)]
  refine ⟨rfl, by show (grow v).size + 1 = _; omega, hlog, ?_⟩
  show ((grow v).arr.take i ++ [x] ++
      ((grow v).arr.drop i).take ((grow v).size - i) ++
      (grow v).arr.drop ((grow v).size + 1)).getD i default = x
  rw [hbuf]
  have hgetA : ((grow v).arr.take i ++ [x] ++
      ((grow v).arr.drop i).take ((grow v).size - i))[i]? = some x := by
    rw [List.append_assoc, List.getElem?_append_right (by simp)]
    simp [Nat.min_eq_left hilen]
  rw [List.getD_eq_getElem?_getD, List.getElem?_append_left (by omega), hgetA]
  rfl

/-- Witness for the C6 theorem: the spec's two examples on `[1,2,3]`. -/
theorem Insert_shifts_witness :
    logical (Insert (fromList [1, 2, 3] : SimpleVector Nat) 0 9).1 = [9, 1, 2, 3] ∧
    logical (Insert (fromList [1, 2, 3] : SimpleVector Nat) 3 9).1 = [1, 2, 3, 9] ∧
    (Insert (fromList [1, 2, 3] : SimpleVector Nat) 0 9).2 = 0 ∧
    (Insert (fromList [1, 2, 3] : SimpleVector Nat) 0 9).1.size = 4 :=
  ⟨((Insert_shifts (fromList [1, 2, 3]) 0 9 (by decide) (by decide)).2.2.1).trans
     (by decide),
   ((Insert_shifts (fromList [1, 2, 3]) 3 9 (by decide) (by decide)).2.2.1).trans
     (by decide),
   (Insert_shifts (fromList [1, 2, 3]) 0 9 (by decide) (by decide)).1,
   (Insert_shifts (fromList [1, 2, 3]) 0 9 (by decide) (by decide)).2.1⟩

/-- C8: `Erase(begin + i)` on a non-empty vector with `i < size` keeps the
first `i` elements, shifts the elements `[i+1, size)` one slot toward the
beginning (overwriting the erased slot, preserving order), decrements the
size, and returns the given index `i`.  In particular `Erase(begin)` on
`[1,2,3]` yields `[2,3]` with the returned position holding `2`. -/
theorem Erase_shifts (v : SimpleVector α) (i : Nat)
    (hg : Good v) (hi : i < v.size) :
    (Erase v i).2 = i ∧
    (Erase v i).1.size = v.size - 1 ∧
    logical (Erase v i).1 = (logical v).take i ++ (logical v).drop (i + 1) := by
  obtain ⟨hlen, hle⟩ := hg
  have hA : (v.arr.take i ++ (v.arr.drop (i + 1)).take (v.size - 1 - i)).length
      = v.size - 1 := by
    simp only [List.length_append, List.length_take, List.length_drop]
    omega
  refine ⟨rfl, rfl, ?_⟩
  show (v.arr.take i ++ (v.arr.drop (i + 1)).take (v.size - 1 - i) ++
      v.arr.drop (v.size - 1)).take (v.size - 1) = _
  rw [List.append_assoc, ← List.append_assoc, List.take_left' hA]
  rw [take_logical v i (by omega), drop_logical v (i + 1) (by omega)]
  rw [show v.size - (i + 1) = v.size - 1 - i from by omega]

/-- Witness for the C8 theorem: the spec's example `Erase(begin)` on `[1,2,3]`. -/
theorem Erase_shifts_witness :
    logical (Erase (fromList [1, 2, 3] : SimpleVector Nat) 0).1 = [2, 3] ∧
    (Erase (fromList [1, 2, 3] : SimpleVector Nat) 0).2 = 0 ∧
    (Erase (fromList [1, 2, 3] : SimpleVector Nat) 0).1.size = 2 ∧
    read (Erase (fromList [1, 2, 3] : SimpleVector Nat) 0).1 0 = 2 :=
  ⟨((Erase_shifts (fromList [1, 2, 3]) 0 (by decide) (by decide)).2.2).trans
     (by decide),
   (Erase_shifts (fromList [1, 2, 3]) 0 (by decide) (by decide)).1,
   ((Erase_shifts (fromList [1, 2, 3]) 0 (by decide) (by decide)).2.1).trans
     (by decide),
   by decide⟩

end SimpleVector

namespace SimpleVector

variable {α : Type} [Inhabited α]

theorem rangeEqual_iff [DecidableEq α] :
    ∀ (l1 l2 : List α), rangeEqual l1 l2 = true ↔ l1 = l2
  | [], [] => by simp [rangeEqual]
  | [], _ :: _ => by simp [rangeEqual]
  | _ :: _, [] => by simp [rangeEqual]
  | x :: xs, y :: ys => by
    by_cases h : x = y
    · simp [rangeEqual, h, rangeEqual_iff xs ys]
    · simp [rangeEqual, h]

theorem lexCompare_iff [LinearOrder α] :
    ∀ (l1 l2 : List α), lexCompare l1 l2 = true ↔ List.Lex (· < ·) l1 l2
  | l, [] => by
    constructor
    · intro h
      cases l <;> simp [lexCompare] at h
    · intro h
      cases h
  | [], y :: ys => by
    simp only [lexCompare]
    exact ⟨fun _ => List.Lex.nil, fun _ => by trivial⟩
  | x :: xs, y :: ys => by
    by_cases hlt : x < y
    · simp only [lexCompare, if_pos hlt]
      exact ⟨fun _ => List.Lex.rel hlt, fun _ => by trivial⟩
    · by_cases hgt : y < x
      · simp only [lexCompare, if_neg hlt, if_pos hgt]
        constructor
        · intro h
          exact absurd h (by simp)
        · intro h
          cases h with
          | rel h1 => exact absurd h1 hlt
          | cons h1 => exact absurd hgt (lt_irrefl x)
      · have hxy : x = y := le_antisymm (not_lt.1 hgt) (not_lt.1 hlt)
        subst hxy
        simp only [lexCompare, if_neg hlt, if_neg hgt]
        rw [lexCompare_iff xs ys]
        constructor
        · intro h
          exact List.Lex.cons h
        · intro h
          cases h with
          | rel h1 => exact absurd h1 (lt_irrefl x)
          | cons h1 => exact h1

theorem read_eq_getD_logical (v : SimpleVector α) (i : Nat)
    (h : i < v.size) :
    read v i = (logical v).getD i default := by
  rw [read, logical, List.getD_eq_getElem?_getD, List.getD_eq_getElem?_getD,
    List.getElem?_take_of_lt h]

/-- C9: `a == b` holds iff the sizes agree and the elements agree pairwise
in order; `a < b` holds iff the element sequence of `a` is lexicographically
less than that of `b`; and the derived operators satisfy
`a != b = !(a == b)`, `a <= b = !(b < a)`, `a > b = (b < a)` and
`a >= b = !(a < b)`. -/
theorem comparison_operators [DecidableEq α] [LinearOrder α]
    (a b : SimpleVector α) (ha : Good a) (hb : Good b) :
    (eqOp a b = true ↔
      (GetSize a = GetSize b ∧ ∀ i, i < GetSize a → read a i = read b i)) ∧
    (ltOp a b = true ↔ List.Lex (· < ·) (logical a) (logical b)) ∧
    neOp a b = !(eqOp a b) ∧
    leOp a b = !(ltOp b a) ∧
    gtOp a b = ltOp b a ∧
    geOp a b = !(ltOp a b) := by
  obtain ⟨ha1, ha2⟩ := ha
  obtain ⟨hb1, hb2⟩ := hb
  refine ⟨?_, lexCompare_iff _ _, rfl, rfl, rfl, rfl⟩
  unfold eqOp GetSize
  rw [Bool.and_eq_true, beq_iff_eq, rangeEqual_iff]
  constructor
  · rintro ⟨hsz, hlog⟩
    refine ⟨hsz, fun i hi => ?_⟩
    rw [read_eq_getD_logical a i hi, read_eq_getD_logical b i (by omega), hlog]
  · rintro ⟨hsz, hpt⟩
    refine ⟨hsz, ?_⟩
    apply List.ext_getElem
    · simp only [logical, List.length_take]
      omega
    · intro i h1 h2
      have hi : i < a.size := by
        simp only [logical, List.length_take] at h1
        omega
      have hi2 : i < b.size := by omega
      have e1 : (logical a)[i] = read a i := by
        rw [read_eq_getD_logical a i hi, List.getD_eq_getElem?_getD,
          List.getElem?_eq_getElem h1]
        rfl
      have e2 : (logical b)[i] = read b i := by
        rw [read_eq_getD_logical b i hi2, List.getD_eq_getElem?_getD,
          List.getElem?_eq_getElem h2]
        rfl
      rw [e1, e2]
      exact hpt i hi

/-- Witness for the C9 theorem at `a = [1,2]`, `b = [1,3]`. -/
theorem comparison_operators_witness :
    (ltOp (fromList [1, 2] : SimpleVector Nat) (fromList [1, 3]) = true ↔
      List.Lex (· < ·) (logical (fromList [1, 2] : SimpleVector Nat))
        (logical (fromList [1, 3] : SimpleVector Nat))) ∧
    geOp (fromList [1, 2] : SimpleVector Nat) (fromList [1, 3]) =
      !(ltOp (fromList [1, 2] : SimpleVector Nat) (fromList [1, 3])) :=
  ⟨(comparison_operators (fromList [1, 2]) (fromList [1, 3])
      (by decide) (by decide)).2.1,
   (comparison_operators (fromList [1, 2]) (fromList [1, 3])
      (by decide) (by decide)).2.2.2.2.2⟩

end SimpleVector
